import Mathlib

/-!
Verification of the in-process extension kernel of the repository:
the event emitter (`EventSystem`), the hook chain (`HookSystem`), the
serial task queue (`MessageQueue`), the configuration store
(`parseEnv` / `getConfig`) and the middleware chain
(`executeMiddlewares`).  Each definition below is a shallow embedding
of the corresponding TypeScript function; theorems settle the frozen
claims about them.
-/

/-- JavaScript-like runtime values as they occur in the configuration
store and the hook system: strings, integers, booleans, arrays and
plain objects (association lists of string keys).  The parsed `.env`
and TOML sources never produce `null` or `undefined`, so the model has
no constructor for them. -/
inductive JVal where
  | vStr (s : String)
  | vNum (n : Int)
  | vBool (b : Bool)
  | vArr (elems : List JVal)
  | vObj (fields : List (String × JVal))

/-- Errors a JavaScript computation in the kernel can raise: a
`TypeError` raised by the runtime itself (e.g. spreading a
non-iterable value) or a user exception carrying a value. -/
inductive JErr where
  | typeError
  | thrown (v : JVal)

/-- Association-list lookup, first match; JavaScript objects have
unique keys, which `setAssoc` maintains. -/
def lookupAssoc {α : Type} (l : List (String × α)) (k : String) : Option α :=
  (l.find? (fun p => p.1 == k)).map (fun p => p.2)

/-- JavaScript object property assignment `obj[k] = v`: an existing
key keeps its position and gets the new value, a new key is appended. -/
def setAssoc {α : Type} : List (String × α) → String → α → List (String × α)
  | [], k, v => [(k, v)]
  | (k', v') :: rest, k, v =>
    if k' == k then (k', v) :: rest else (k', v') :: setAssoc rest k v

/-- The value the LAST pair with key `k` carries, if any; this is what
a sequence of JavaScript object assignments for the listed pairs
leaves at key `k`. -/
def lastVal {α : Type} : List (String × α) → String → Option α
  | [], _ => none
  | kv :: rest, k =>
    match lastVal rest k with
    | some v => some v
    | none => if kv.1 == k then some kv.2 else none

/-- `String.prototype.split(sep)` for a single-character separator,
scanning left to right and accumulating the current segment in
reverse; `""` splits to `[""]` and the result is never empty. -/
def splitCharAux (sep : Char) : List Char → List Char → List String
  | [], acc => [String.mk acc.reverse]
  | c :: rest, acc =>
    if c == sep then String.mk acc.reverse :: splitCharAux sep rest []
    else splitCharAux sep rest (c :: acc)

/-- `path.split('.')` as used by `getConfig`. -/
def splitPath (p : String) : List String := splitCharAux '.' p.data []

/-- Whitespace characters removed by `String.prototype.trim()`. -/
def isJsSpace (c : Char) : Bool :=
  c == ' ' || c == '\t' || c == '\n' || c == '\r'

/-- `String.prototype.trim()`: drop whitespace at both ends. -/
def jsTrim (s : String) : String :=
  String.mk (((s.data.dropWhile isJsSpace).reverse.dropWhile isJsSpace).reverse)

/-- JavaScript truthiness for the values of the model: `""`, `0` and
`false` are falsy, everything else is truthy. -/
def truthy : JVal → Bool
  | .vStr s => !(s == "")
  | .vNum n => !(n == 0)
  | .vBool b => b
  | .vArr _ => true
  | .vObj _ => true

/-- The canonical array-index reading of a property key: `"3"` is the
index 3, while `"03"` or `"x"` are not indices. -/
def canonIdx (k : String) : Option Nat :=
  match k.toNat? with
  | some i => if toString i == k then some i else none
  | none => none

/-- `acc.hasOwnProperty(key)` on the model values: objects own their
listed keys, arrays and strings own in-range indices and `"length"`,
numbers and booleans own nothing. -/
def hasOwnProperty : JVal → String → Bool
  | .vObj fields, k => (lookupAssoc fields k).isSome
  | .vArr elems, k =>
    k == "length" ||
      (match canonIdx k with
       | some i => decide (i < elems.length)
       | none => false)
  | .vStr s, k =>
    k == "length" ||
      (match canonIdx k with
       | some i => decide (i < s.length)
       | none => false)
  | _, _ => false

/-- `acc[key]`, meaningful when `hasOwnProperty acc key` holds. -/
def getProp : JVal → String → JVal
  | .vObj fields, k => (lookupAssoc fields k).getD (.vStr "")
  | .vArr elems, k =>
    if k == "length" then .vNum elems.length
    else
      match canonIdx k with
      | some i => (elems.get? i).getD (.vStr "")
      | none => .vStr ""
  | .vStr s, k =>
    if k == "length" then .vNum s.length
    else
      match canonIdx k with
      | some i => ((s.data.get? i).map (fun c => JVal.vStr (String.singleton c))).getD (.vStr "")
      | none => .vStr ""
  | _, _ => .vStr ""

/-- One step of `getConfig`'s reduce callback: follow the key when the
accumulator is truthy and owns it, otherwise return the empty-string
sentinel. -/
def configStep (acc : JVal) (key : String) : JVal :=
  if truthy acc && hasOwnProperty acc key then getProp acc key else .vStr ""

/-- `getConfig(path)` from `myserver.ts` / the kernel module: split the
path on `.` and reduce over the segments starting from the merged
configuration mapping. -/
def getConfig (cfg : JVal) (p : String) : JVal :=
  (splitPath p).foldl configStep cfg

/-- The per-segment walk `getConfig` performs, made explicit as an
`Option`: `none` as soon as a segment is absent (the accumulator is
falsy or does not own the key), `some` of the stored value when every
segment is present.  Uses exactly the predicates of `configStep`. -/
def walkPath : JVal → List String → Option JVal
  | cfg, [] => some cfg
  | cfg, k :: rest =>
    if truthy cfg && hasOwnProperty cfg k then walkPath (getProp cfg k) rest else none

/-- The top-level configuration merge `{...configMerged, ...configToml}`
performed at startup (environment pairs first, TOML document second):
JavaScript object spread assigns all pairs of the first object, then
all pairs of the second, into a fresh object. -/
def objSpread2 (a b : List (String × JVal)) : List (String × JVal) :=
  (a ++ b).foldl (fun acc kv => setAssoc acc kv.1 kv.2) []

/-- First match of the regex pattern used by `parseEnv`'s dollar-brace
reference, after the opening two characters: a greedy nonempty run of
non-closing-brace characters followed by the closing brace.  Returns
the captured key and the characters after the match. -/
def takeKey (l : List Char) : Option (List Char × List Char) :=
  match l.dropWhile (fun c => !(c == '}')) with
  | '}' :: after =>
    if (l.takeWhile (fun c => !(c == '}'))).isEmpty then none
    else some (l.takeWhile (fun c => !(c == '}')), after)
  | _ => none

/-- The replacer of `parseEnv`'s interpolation: the value of the
referenced key when `tempEnv` defines it, otherwise the literal
matched text (dollar, opening brace, key, closing brace). -/
def replRef (env : List (String × String)) (key : List Char) : List Char :=
  match lookupAssoc env (String.mk key) with
  | some v => v.data
  | none => '$' :: '{' :: (key ++ ['}'])

/-- One pass of `value.replace(regex, replacer)` with the global flag:
scan left to right, replace every non-overlapping match, never rescan
replacement text within the same pass.  The fuel argument bounds the
scan; `substOnce` supplies the input length, which always suffices
because every step consumes at least one character. -/
def substAux (env : List (String × String)) : Nat → List Char → List Char
  | 0, l => l
  | _ + 1, [] => []
  | n + 1, '$' :: '{' :: rest =>
    (match takeKey rest with
     | some ka => replRef env ka.1 ++ substAux env n ka.2
     | none => '$' :: substAux env n ('{' :: rest))
  | n + 1, c :: rest => c :: substAux env n rest

/-- One full replace pass over a value string. -/
def substOnce (env : List (String × String)) (v : String) : String :=
  String.mk (substAux env v.data.length v.data)

/-- The regex test of `parseEnv`'s while-condition: does the string
contain a dollar-brace reference anywhere?  Same scan as `substAux`. -/
def hasRefAux : Nat → List Char → Bool
  | 0, _ => false
  | _ + 1, [] => false
  | n + 1, '$' :: '{' :: rest => (takeKey rest).isSome || hasRefAux n ('{' :: rest)
  | n + 1, _ :: rest => hasRefAux n rest

/-- Whether a value still contains a dollar-brace reference. -/
def hasRef (v : String) : Bool := hasRefAux v.data.length v.data

/-- `parseEnv`'s interpolation loop
`while (regex.test(value)) value = value.replace(regex, replacer)`.
The source loop has no bound; the fuel makes the partiality explicit:
`none` means the loop is still running after `fuel` iterations, so
`(∀ fuel, resolveLoop env fuel v = none)` states that the source loop
never terminates on `v`. -/
def resolveLoop (env : List (String × String)) : Nat → String → Option String
  | 0, _ => none
  | n + 1, v => if hasRef v then resolveLoop env n (substOnce env v) else some v

/-- One line of the `.env` file, as `parseEnv` handles it: trim, strip
from the first hash character to the end of the line, skip empty
results, split on the equals sign, take the first two parts, skip the
line when either is empty or missing, and trim key and value. -/
def parseLine (line : String) : Option (String × String) :=
  let cleaned := (jsTrim line).data.takeWhile (fun c => !(c == '#'))
  if cleaned.isEmpty then none
  else
    match splitCharAux '=' cleaned [] with
    | key :: value :: _ =>
      if key == "" || value == "" then none
      else some (jsTrim key, jsTrim value)
    | _ => none

/-- The `tempEnv` object `parseEnv` accumulates line by line; a later
line with the same key overwrites the earlier value. -/
def buildTempEnv (lines : List String) : List (String × String) :=
  lines.foldl
    (fun env line =>
      match parseLine line with
      | some kv => setAssoc env kv.1 kv.2
      | none => env)
    []

/-- Resolve every value of `tempEnv` against the unresolved `tempEnv`
(the source reads `tempEnv[refKey]`, which is never reassigned during
resolution).  `none` when any value's interpolation loop fails to
terminate within the fuel. -/
def resolveValsGo (env : List (String × String)) (fuel : Nat) :
    List (String × String) → Option (List (String × String))
  | [] => some []
  | kv :: rest =>
    match resolveLoop env fuel kv.2 with
    | none => none
    | some v =>
      match resolveValsGo env fuel rest with
      | none => none
      | some out => some ((kv.1, v) :: out)

def resolveVals (env : List (String × String)) (fuel : Nat) :
    Option (List (String × String)) :=
  resolveValsGo env fuel env

/-- `parseEnv` on the lines of an `.env` file: build `tempEnv`, then
resolve the references of every value. -/
def parseEnvModel (fuel : Nat) (lines : List String) :
    Option (List (String × String)) :=
  resolveVals (buildTempEnv lines) fuel

/-- JavaScript spread of a value into an argument list,
`callback(...result)`: arrays spread to their elements, strings to
their characters (both are iterable); objects, numbers and booleans
are not iterable and raise a `TypeError`. -/
def spreadArgs : JVal → Except JErr (List JVal)
  | .vArr l => .ok l
  | .vStr s => .ok (s.data.map (fun c => JVal.vStr (String.singleton c)))
  | _ => .error .typeError

/-- The loop body of `HookSystem.run`: starting from the current
`result`, spread it into the next callback's arguments, run the
callback, and continue with its return value; the final `result` is
returned.  An exception — from the spread or from the callback —
rejects the whole run. -/
def runHooksGo : List (List JVal → Except JErr JVal) → JVal → Except JErr JVal
  | [], result => .ok result
  | h :: rest, result =>
    match spreadArgs result with
    | .error e => .error e
    | .ok l =>
      match h l with
      | .error e => .error e
      | .ok r => runHooksGo rest r

/-- `HookSystem.run(hookName, ...args)` for the handler list registered
on the stage: `result` starts as the argument array. -/
def runHooks (hs : List (List JVal → Except JErr JVal)) (args : List JVal) :
    Except JErr JVal :=
  runHooksGo hs (.vArr args)

/-- The result threading of `HookSystem.run` as the claim writes it:
`Threads hs r r'` holds when every handler of `hs`, fed the spread of
the previous result, returns normally, producing `r'` from `r`. -/
inductive Threads : List (List JVal → Except JErr JVal) → JVal → JVal → Prop where
  | nil (r : JVal) : Threads [] r r
  | cons {h : List JVal → Except JErr JVal} {rest : List (List JVal → Except JErr JVal)}
      {r r' r'' : JVal} {l : List JVal} :
      spreadArgs r = .ok l → h l = .ok r' → Threads rest r' r'' →
      Threads (h :: rest) r r''

/-- `(ctx.count || 0)` for a numeric or absent `count` field: `0` when
the field is absent, not a number, or the falsy number `0`. -/
def jsCountOf (ctx : JVal) : Int :=
  match ctx with
  | .vObj fields =>
    match lookupAssoc fields "count" with
    | some (.vNum n) => if n == 0 then 0 else n
    | _ => 0
  | _ => 0

/-- The context object of the hook scenario, an object with one
numeric `count` field. -/
def ctxCount (n : Int) : JVal := .vObj [("count", .vNum n)]

/-- The handler of the end-to-end hook scenario,
`(ctx) => ({count: (ctx.count || 0) + 1})`: takes the first argument
and returns a plain object; property access on a missing first
argument would raise a `TypeError`. -/
def hInc : List JVal → Except JErr JVal
  | ctx :: _ => .ok (.vObj [("count", .vNum (jsCountOf ctx + 1))])
  | [] => .error .typeError

/-- The array-returning variant of the scenario handler,
`(ctx) => [{count: (ctx.count || 0) + 1}]`, whose return value the
next iteration of `run` can spread. -/
def hIncArr : List JVal → Except JErr JVal
  | ctx :: _ => .ok (.vArr [.vObj [("count", .vNum (jsCountOf ctx + 1))]])
  | [] => .error .typeError

/-- A handler that ignores its arguments and returns the array `[1]`. -/
def hConstOne : List JVal → Except JErr JVal :=
  fun _ => .ok (.vArr [.vNum 1])

/-- A handler that always throws. -/
def hBoom : List JVal → Except JErr JVal :=
  fun _ => .error (.thrown (.vStr "boom"))

/-- A listener registered on an `EventSystem` topic, instrumented with
an identifier; `failure = some e` models a listener whose body throws
`e` when invoked. -/
structure Listener where
  id : Nat
  failure : Option JErr

/-- `EventSystem.emit` delegates to Node's `EventEmitter#emit`, which
invokes the topic's listeners synchronously in registration order; a
listener that throws aborts the iteration and the exception propagates
out of `emit` (`EventSystem` wraps the call in no try/catch).  Returns
the identifiers of the listeners that were invoked, in invocation
order, and the propagated exception if any. -/
def emitRun : List Listener → List Nat × Option JErr
  | [] => ([], none)
  | l :: rest =>
    match l.failure with
    | some e => ([l.id], some e)
    | none =>
      let p := emitRun rest
      (l.id :: p.1, p.2)

/-- A middleware of the generic request/response chain, instrumented
with an identifier; `callsNext` records whether its body invokes the
`next` continuation it receives. -/
structure MW where
  id : Nat
  callsNext : Bool

/-- `executeMiddlewares(req, res)`: the continuation closure invokes
`middlewares[index++]` and hands it the continuation again, so the
chain proceeds exactly when the current middleware calls `next`, and
halts at the end of the list or at a middleware that never calls it.
Returns the identifiers of the middlewares that ran, in invocation
order; the function returns (the promise resolves) only after this
list is complete. -/
def executeMiddlewares : List MW → List Nat
  | [] => []
  | m :: rest =>
    if m.callsNext then m.id :: executeMiddlewares rest else [m.id]

/-- A task handed to `MessageQueue.enqueue`, instrumented with an
identifier: `fails` models a body whose promise rejects, and `spawns`
lists the tasks its body enqueues reentrantly (each such `enqueue`
appends to the tail and returns at once because the drain loop is
running). -/
inductive QTask where
  | mk (id : Nat) (fails : Bool) (spawns : List QTask)

/-- Identifier of a task. -/
def QTask.idOf : QTask → Nat
  | .mk i _ _ => i

/-- Whether the task's body rejects. -/
def QTask.failsOf : QTask → Bool
  | .mk _ f _ => f

/-- The tasks the body enqueues while it runs. -/
def QTask.spawnsOf : QTask → List QTask
  | .mk _ _ sp => sp

mutual

/-- Number of task executions a task gives rise to: itself plus,
recursively, everything it spawns. -/
def QTask.size : QTask → Nat
  | .mk _ _ sp => 1 + sizeQTasks sp

/-- Total number of task executions a queue gives rise to. -/
def sizeQTasks : List QTask → Nat
  | [] => 0
  | t :: ts => t.size + sizeQTasks ts

end

/-- State of a `MessageQueue`: the pending list, the `processing`
flag, the identifiers of executed tasks in execution order, and the
identifiers of tasks whose failure the drain loop caught and logged. -/
structure QState where
  queue : List QTask
  processing : Bool
  log : List Nat
  errors : List Nat

/-- The `while (this.queue.length > 0)` drain loop of
`MessageQueue.processQueue`: shift the head task, await it — its
reentrant enqueues land at the tail of the queue and its rejection is
caught and logged — and re-check the queue.  Returns the executed
identifiers in order and the logged failures. -/
def drain : List QTask → List Nat × List Nat
  | [] => ([], [])
  | t :: rest =>
    let p := drain (rest ++ t.spawnsOf)
    (t.idOf :: p.1, (if t.failsOf then [t.idOf] else []) ++ p.2)
termination_by q => sizeQTasks q
decreasing_by
  have happ : ∀ (a b : List QTask), sizeQTasks (a ++ b) = sizeQTasks a + sizeQTasks b := by
    intro a b
    induction a with
    | nil => simp [sizeQTasks]
    | cons x xs ih => simp [sizeQTasks, ih]; omega
  have hsz : t.size = 1 + sizeQTasks t.spawnsOf := by
    cases t; rfl
  simp [happ, sizeQTasks]
  omega

/-- `MessageQueue.processQueue`: return at once when a drain loop is
already active (the `processing` flag), otherwise set the flag, drain
the queue to empty, and clear the flag. -/
def processQueue (s : QState) : QState :=
  if s.processing then s
  else
    let p := drain s.queue
    { queue := [], processing := false, log := s.log ++ p.1, errors := s.errors ++ p.2 }

/-- `MessageQueue.enqueue(task)`: push the task, then await
`processQueue`; the returned state is what the caller observes when
the promise returned by `enqueue` resolves. -/
def enqueue (t : QTask) (s : QState) : QState :=
  processQueue { s with queue := s.queue ++ [t] }

mutual

/-- The same task with every failure flag cleared, recursively. -/
def QTask.calm : QTask → QTask
  | .mk i _ sp => .mk i false (calmQTasks sp)

/-- Clear every failure flag in a queue. -/
def calmQTasks : List QTask → List QTask
  | [] => []
  | t :: ts => t.calm :: calmQTasks ts

end

theorem sizeQTasks_append (a b : List QTask) :
    sizeQTasks (a ++ b) = sizeQTasks a + sizeQTasks b := by
  induction a with
  | nil => simp [sizeQTasks]
  | cons t ts ih => simp [sizeQTasks, ih]; omega

theorem QTask.size_spawns (t : QTask) : t.size = 1 + sizeQTasks t.spawnsOf := by
  cases t; rfl

theorem configStep_sentinel (k : String) : configStep (.vStr "") k = .vStr "" := rfl

theorem foldl_configStep_sentinel (keys : List String) :
    keys.foldl configStep (.vStr "") = .vStr "" := by
  induction keys with
  | nil => rfl
  | cons k rest ih => simpa [configStep_sentinel] using ih

theorem foldl_configStep_walkPath (keys : List String) (cfg : JVal) :
    keys.foldl configStep cfg = (walkPath cfg keys).getD (.vStr "") := by
  induction keys generalizing cfg with
  | nil => rfl
  | cons k rest ih =>
    by_cases h : (truthy cfg && hasOwnProperty cfg k) = true
    · simp only [List.foldl_cons, walkPath, h, if_true, configStep]
      exact ih (getProp cfg k)
    · simp only [List.foldl_cons, walkPath, h, if_false, configStep, Option.getD_none]
      exact foldl_configStep_sentinel rest

theorem splitCharAux_ne_nil (sep : Char) (l acc : List Char) :
    splitCharAux sep l acc ≠ [] := by
  induction l generalizing acc with
  | nil => simp [splitCharAux]
  | cons c rest ih =>
    by_cases h : (c == sep) = true
    · simp [splitCharAux, h]
    · simp only [splitCharAux, h, Bool.false_eq_true, if_false]
      exact ih _

theorem lastVal_cons {α : Type} (kv : String × α) (rest : List (String × α)) (k : String) :
    lastVal (kv :: rest) k
      = (lastVal rest k).or (if kv.1 == k then some kv.2 else none) := by
  cases h : lastVal rest k <;> simp [lastVal, h, Option.or]

theorem lookupAssoc_nil {α : Type} (k : String) :
    lookupAssoc ([] : List (String × α)) k = none := rfl

theorem lookupAssoc_cons {α : Type} (kv : String × α) (rest : List (String × α)) (k : String) :
    lookupAssoc (kv :: rest) k
      = if kv.1 == k then some kv.2 else lookupAssoc rest k := by
  cases h : kv.1 == k <;> simp [lookupAssoc, List.find?, h]

theorem lookupAssoc_setAssoc {α : Type} (l : List (String × α)) (kset : String) (v : α)
    (kq : String) :
    lookupAssoc (setAssoc l kset v) kq
      = if kq == kset then some v else lookupAssoc l kq := by
  induction l with
  | nil =>
    rw [show setAssoc ([] : List (String × α)) kset v = [(kset, v)] from rfl,
      lookupAssoc_cons]
    by_cases h : kq = kset
    · subst h; simp
    · simp [h, Ne.symm h, lookupAssoc_nil]
  | cons kv rest ih =>
    by_cases h1 : kv.1 = kset
    · have hs : setAssoc (kv :: rest) kset v = (kv.1, v) :: rest := by
        simp [setAssoc, h1]
      rw [hs, lookupAssoc_cons, lookupAssoc_cons]
      by_cases h2 : kv.1 = kq
      · have h3 : kq = kset := by rw [← h2, h1]
        simp [h2, h3]
      · have h3 : ¬kq = kset := by
          intro hc
          exact h2 (by rw [h1, hc])
        simp [h2, h3]
    · have hs : setAssoc (kv :: rest) kset v = kv :: setAssoc rest kset v := by
        simp [setAssoc, h1]
      rw [hs, lookupAssoc_cons, lookupAssoc_cons, ih]
      by_cases h2 : kv.1 = kq
      · have h3 : ¬kq = kset := by
          intro hc
          exact h1 (by rw [h2, hc])
        simp [h2, h3]
      · by_cases h3 : kq = kset
        · subst h3
          simp [h2]
        · simp [h2, h3]

theorem lookup_foldl_set {α : Type} (pairs : List (String × α)) (init : List (String × α))
    (k : String) :
    lookupAssoc (pairs.foldl (fun acc kv => setAssoc acc kv.1 kv.2) init) k
      = (lastVal pairs k).or (lookupAssoc init k) := by
  induction pairs generalizing init with
  | nil => simp [lastVal, Option.or]
  | cons kv rest ih =>
    rw [List.foldl_cons, ih, lastVal_cons, Option.or_assoc]
    by_cases h : kv.1 = k
    · simp [h, lookupAssoc_setAssoc, Option.or]
    · simp [h, Ne.symm h, lookupAssoc_setAssoc, Option.or]

theorem lastVal_append {α : Type} (a b : List (String × α)) (k : String) :
    lastVal (a ++ b) k = (lastVal b k).or (lastVal a k) := by
  induction a with
  | nil => simp [lastVal]
  | cons kv a' ih =>
    rw [List.cons_append, lastVal_cons, ih, Option.or_assoc, ← lastVal_cons]

theorem lookupAssoc_objSpread2 (a b : List (String × JVal)) (k : String) :
    lookupAssoc (objSpread2 a b) k = (lastVal b k).or (lastVal a k) := by
  unfold objSpread2
  rw [lookup_foldl_set, lastVal_append]
  simp [lookupAssoc, List.find?]

/-- Claim C8: `getConfig` splits the dotted path and walks the merged
mapping one segment at a time; it equals the stored nested value when
every segment is present (`walkPath` returns `some`) and the
empty-string sentinel whenever any segment is absent (`walkPath`
returns `none`), including on the entirely empty mapping; being a
total function into `JVal`, it never throws and never produces
`undefined`/`null`. -/
theorem getConfig_sentinel_on_missing :
    (∀ (cfg : JVal) (p : String),
        getConfig cfg p = (walkPath cfg (splitPath p)).getD (JVal.vStr ""))
    ∧ (∀ p : String, getConfig (JVal.vObj []) p = JVal.vStr "") := by
  constructor
  · intro cfg p
    exact foldl_configStep_walkPath _ _
  · intro p
    rw [show getConfig (JVal.vObj []) p = (splitPath p).foldl configStep (JVal.vObj []) from rfl]
    cases h : splitPath p with
    | nil => exact absurd h (splitCharAux_ne_nil _ _ _)
    | cons k rest =>
      rw [foldl_configStep_walkPath]
      simp [walkPath, hasOwnProperty, lookupAssoc, List.find?]

/-- Claim C2 counterexample: with the environment file defining
`k = "env"` and the TOML document defining `k = "toml"`, the startup
merge `{...configMerged, ...configToml}` lets the TOML value win, so
`getConfig("k")` returns the TOML value, not the environment value the
claim requires. -/
theorem config_merge_counterexample :
    getConfig (JVal.vObj (objSpread2 [("k", JVal.vStr "env")] [("k", JVal.vStr "toml")])) "k"
      = JVal.vStr "toml"
    ∧ JVal.vStr "toml" ≠ JVal.vStr "env" := by
  constructor
  · rfl
  · intro h
    injection h with h'
    exact absurd h' (by decide)

/-- Claim C2 amended: the merge `{...configMerged, ...configToml}`
spreads the TOML document last, so for every top-level key defined in
both parsed sources, `getConfig` returns the TOML (structured
document) value — the structured document wins on collision, not the
environment file. -/
theorem config_merge_toml_wins (env toml : List (String × JVal)) (k : String) (vT : JVal)
    (hT : lastVal toml k = some vT) (hk : splitPath k = [k]) :
    getConfig (JVal.vObj (objSpread2 env toml)) k = vT := by
  rw [show getConfig (JVal.vObj (objSpread2 env toml)) k
        = (splitPath k).foldl configStep (JVal.vObj (objSpread2 env toml)) from rfl, hk]
  have hl : lookupAssoc (objSpread2 env toml) k = some vT := by
    rw [lookupAssoc_objSpread2, hT]
    rfl
  simp [configStep, truthy, hasOwnProperty, getProp, hl]

/-- Witness for the amended C2 theorem at the concrete colliding key. -/
theorem config_merge_toml_wins_witness :
    lastVal [("k", JVal.vStr "toml")] "k" = some (JVal.vStr "toml")
    ∧ splitPath "k" = ["k"]
    ∧ getConfig (JVal.vObj (objSpread2 [("k", JVal.vStr "env")] [("k", JVal.vStr "toml")])) "k"
        = JVal.vStr "toml" :=
  ⟨rfl, rfl, config_merge_toml_wins _ _ _ _ rfl rfl⟩

theorem substOnce_unset :
    substOnce [("C", "${UNSET}")] "${UNSET}" = "${UNSET}" := rfl

theorem hasRef_unset : hasRef "${UNSET}" = true := rfl

theorem resolveLoop_unset (n : Nat) :
    resolveLoop [("C", "${UNSET}")] n "${UNSET}" = none := by
  induction n with
  | zero => rfl
  | succ n ih =>
    simp only [resolveLoop, hasRef_unset, if_true, substOnce_unset]
    exact ih

/-- Claim C3 (code bug): on the lines `A=1` and `B=${A}2`,
`parseEnv`'s interpolation terminates and yields `B = "12"` as the
claim states; but on the line `C=${UNSET}` — a reference to a key the
file does not define — the `while (regex.test(value))` loop never
exits, because the replacer substitutes the literal text back
unchanged and the regex keeps matching, so `parseEnv` hangs instead of
terminating with the literal left in place (`none` for every fuel
bound models the unbounded source loop never finishing). -/
theorem parseEnv_terminates_except_missing_ref :
    parseEnvModel 5 ["A=1", "B=${A}2"] = some [("A", "1"), ("B", "12")]
    ∧ (∀ fuel : Nat, parseEnvModel fuel ["C=${UNSET}"] = none) := by
  constructor
  · rfl
  · intro fuel
    rw [show parseEnvModel fuel ["C=${UNSET}"]
          = resolveValsGo [("C", "${UNSET}")] fuel [("C", "${UNSET}")] from rfl]
    simp only [resolveValsGo, resolveLoop_unset fuel]

theorem runHooksGo_of_threads (hs : List (List JVal → Except JErr JVal)) (r r' : JVal)
    (ht : Threads hs r r') : runHooksGo hs r = .ok r' := by
  induction ht with
  | nil r0 => rfl
  | cons hspread happ _ ih =>
    simp only [runHooksGo, hspread, happ]
    exact ih

theorem runHooksGo_abort (pre : List (List JVal → Except JErr JVal))
    (hk : List JVal → Except JErr JVal) (rest : List (List JVal → Except JErr JVal))
    (r r' : JVal) (l : List JVal) (e : JErr)
    (ht : Threads pre r r') (hsp : spreadArgs r' = .ok l) (he : hk l = .error e) :
    runHooksGo (pre ++ hk :: rest) r = .error e := by
  induction ht with
  | nil r0 =>
    simp only [List.nil_append, runHooksGo, hsp, he]
  | cons hspread happ _ ih =>
    simp only [List.cons_append, runHooksGo, hspread, happ]
    exact ih hsp

/-- Claim C4: `HookSystem.run` executes the stage's handlers strictly
sequentially with result threading — the first result is the argument
array, each later result is the handler applied to the spread of the
previous one (`Threads`) — and resolves to the final result when every
handler returns normally; when a handler throws, `run` rejects with
exactly that error and the handlers after it are never consulted (the
result is the same for every tail `rest`); and with no registered
handlers `run` resolves to the original arguments unchanged. -/
theorem hook_run_sequential_threading :
    (∀ args : List JVal, runHooks [] args = .ok (JVal.vArr args))
    ∧ (∀ (hs : List (List JVal → Except JErr JVal)) (args : List JVal) (r : JVal),
        Threads hs (JVal.vArr args) r → runHooks hs args = .ok r)
    ∧ (∀ (pre : List (List JVal → Except JErr JVal)) (hk : List JVal → Except JErr JVal)
        (rest : List (List JVal → Except JErr JVal)) (args : List JVal) (r : JVal)
        (l : List JVal) (e : JErr),
        Threads pre (JVal.vArr args) r → spreadArgs r = .ok l → hk l = .error e →
        runHooks (pre ++ hk :: rest) args = .error e) :=
  ⟨fun _ => rfl,
   fun _ _ _ ht => runHooksGo_of_threads _ _ _ ht,
   fun pre hk rest _ _ l e ht hsp he => runHooksGo_abort pre hk rest _ _ l e ht hsp he⟩

/-- Witness for C4: the empty stage is the identity; a one-handler
stage resolves to the handler's result; a throwing second handler
rejects the run with its error, with a third handler registered after
it. -/
theorem hook_run_sequential_threading_witness :
    runHooks [] [JVal.vNum 5] = .ok (JVal.vArr [JVal.vNum 5])
    ∧ runHooks [hConstOne] [JVal.vNum 5] = .ok (JVal.vArr [JVal.vNum 1])
    ∧ runHooks [hConstOne, hBoom, hConstOne] [JVal.vNum 5]
        = .error (.thrown (.vStr "boom")) :=
  ⟨hook_run_sequential_threading.1 [JVal.vNum 5],
   hook_run_sequential_threading.2.1 [hConstOne] [JVal.vNum 5] (JVal.vArr [JVal.vNum 1])
     (Threads.cons rfl rfl (Threads.nil _)),
   hook_run_sequential_threading.2.2 [hConstOne] hBoom [hConstOne] [JVal.vNum 5]
     (JVal.vArr [JVal.vNum 1]) [JVal.vNum 1] (.thrown (.vStr "boom"))
     (Threads.cons rfl rfl (Threads.nil _)) rfl rfl⟩

/-- Claim C6 counterexample: registering the object-returning
increment handler twice and running on `{count: 0}` rejects with a
`TypeError` — the loop's second iteration spreads the first handler's
plain-object return value, which is not iterable — so the run does not
yield `{count: 2}`. -/
theorem hook_scenario_counterexample :
    runHooks [hInc, hInc] [ctxCount 0] = .error .typeError
    ∧ runHooks [hInc, hInc] [ctxCount 0] ≠ .ok (ctxCount 2) := by
  refine ⟨rfl, ?_⟩
  intro h
  rw [show runHooks [hInc, hInc] [ctxCount 0] = Except.error JErr.typeError from rfl] at h
  exact Except.noConfusion h

/-- Claim C6 amended: the scenario holds once each handler returns the
singleton argument array instead of a bare object — registering
`(ctx) => [{count: (ctx.count||0)+1}]` twice, `run("beforeStart",
{count: 0})` resolves to `[{count: 2}]`; with the bare-object handler
of the claim the run instead rejects with a `TypeError` (see the
counterexample). -/
theorem hook_scenario_amended :
    runHooks [hIncArr, hIncArr] [ctxCount 0] = .ok (JVal.vArr [ctxCount 2]) := rfl

theorem emitRun_all_ok (ls : List Listener) (h : ∀ l ∈ ls, l.failure = none) :
    emitRun ls = (ls.map Listener.id, none) := by
  induction ls with
  | nil => rfl
  | cons l rest ih =>
    have hl : l.failure = none := h l (List.mem_cons_self _ _)
    have hrest : ∀ x ∈ rest, x.failure = none := fun x hx => h x (List.mem_cons_of_mem _ hx)
    simp [emitRun, hl, ih hrest]

theorem emitRun_abort (pre : List Listener) (i : Nat) (e : JErr) (post : List Listener)
    (h : ∀ l ∈ pre, l.failure = none) :
    emitRun (pre ++ { id := i, failure := some e } :: post)
      = (pre.map Listener.id ++ [i], some e) := by
  induction pre with
  | nil => simp [emitRun]
  | cons l rest ih =>
    have hl : l.failure = none := h l (List.mem_cons_self _ _)
    have hrest : ∀ x ∈ rest, x.failure = none := fun x hx => h x (List.mem_cons_of_mem _ hx)
    simp [emitRun, hl, ih hrest]

/-- Claim C1 counterexample: with a throwing listener registered
before a well-behaved one, `emit` invokes only the first listener —
the second never runs — and the exception propagates to the caller,
against the claim that every listener runs and nothing propagates. -/
theorem emit_throw_counterexample :
    emitRun [{ id := 1, failure := some JErr.typeError }, { id := 2, failure := none }]
      = ([1], some JErr.typeError)
    ∧ ([1] : List Nat) ≠ [1, 2] :=
  ⟨rfl, by decide⟩

/-- Claim C1 amended: `EventSystem.emit` hands the listeners to Node's
`EventEmitter#emit` with no try/catch, so listeners run synchronously
in registration order; when no listener throws, every registered
listener is invoked exactly once, in order, and nothing propagates;
but a listener that throws aborts the remaining listeners of that same
publish and its exception propagates to the caller of `emit`. -/
theorem emit_order_and_abort :
    (∀ ls : List Listener, (∀ l ∈ ls, l.failure = none) →
        emitRun ls = (ls.map Listener.id, none))
    ∧ (∀ (pre : List Listener) (i : Nat) (e : JErr) (post : List Listener),
        (∀ l ∈ pre, l.failure = none) →
        emitRun (pre ++ { id := i, failure := some e } :: post)
          = (pre.map Listener.id ++ [i], some e)) :=
  ⟨emitRun_all_ok, emitRun_abort⟩

/-- Witness for the amended C1 theorem at two concrete listener lists. -/
theorem emit_order_and_abort_witness :
    emitRun [{ id := 1, failure := none }, { id := 2, failure := none }] = ([1, 2], none)
    ∧ emitRun [{ id := 1, failure := none }, { id := 2, failure := some JErr.typeError },
        { id := 3, failure := none }] = ([1, 2], some JErr.typeError) :=
  ⟨emit_order_and_abort.1 [{ id := 1, failure := none }, { id := 2, failure := none }]
     (by intro l hl; fin_cases hl <;> rfl),
   emit_order_and_abort.2 [{ id := 1, failure := none }] 2 JErr.typeError
     [{ id := 3, failure := none }]
     (by intro l hl; fin_cases hl; rfl)⟩

/-- Claim C9: in the generic request/response middleware chain, a
middleware that never calls its continuation halts the chain — no
later middleware is invoked, whatever follows it; and when the first
and second both call their continuation, both run, in registration
order, and the log is complete when `execute` returns (resolves). -/
theorem middleware_short_circuit_and_order :
    (∀ (m1 : MW) (rest : List MW), m1.callsNext = false →
        executeMiddlewares (m1 :: rest) = [m1.id])
    ∧ (∀ m1 m2 : MW, m1.callsNext = true → m2.callsNext = true →
        executeMiddlewares [m1, m2] = [m1.id, m2.id]) := by
  constructor
  · intro m1 rest h
    simp [executeMiddlewares, h]
  · intro m1 m2 h1 h2
    simp [executeMiddlewares, h1, h2]

/-- Witness for C9 at two concrete two-middleware chains. -/
theorem middleware_short_circuit_and_order_witness :
    executeMiddlewares [{ id := 1, callsNext := false }, { id := 2, callsNext := true }] = [1]
    ∧ executeMiddlewares [{ id := 1, callsNext := true }, { id := 2, callsNext := true }]
        = [1, 2] :=
  ⟨middleware_short_circuit_and_order.1 { id := 1, callsNext := false }
     [{ id := 2, callsNext := true }] rfl,
   middleware_short_circuit_and_order.2 { id := 1, callsNext := true }
     { id := 2, callsNext := true } rfl rfl⟩

theorem processQueue_busy (s : QState) (h : s.processing = true) : processQueue s = s := by
  simp [processQueue, h]

theorem drain_nil : drain [] = ([], []) := by
  simp [drain]

theorem drain_cons (t : QTask) (rest : List QTask) :
    drain (t :: rest)
      = (t.idOf :: (drain (rest ++ t.spawnsOf)).1,
         (if t.failsOf then [t.idOf] else []) ++ (drain (rest ++ t.spawnsOf)).2) := by
  rw [drain]

theorem drain_no_spawns (ts : List QTask) (h : ∀ t ∈ ts, t.spawnsOf = []) :
    (drain ts).1 = ts.map QTask.idOf := by
  induction ts with
  | nil => simp [drain_nil]
  | cons t rest ih =>
    have hsp : t.spawnsOf = [] := h t (List.mem_cons_self _ _)
    have hrest : ∀ x ∈ rest, x.spawnsOf = [] := fun x hx => h x (List.mem_cons_of_mem _ hx)
    rw [drain_cons, hsp, List.append_nil]
    simp [ih hrest]

theorem drain_log_length (ts : List QTask) : (drain ts).1.length = sizeQTasks ts := by
  generalize hn : sizeQTasks ts = n
  induction n using Nat.strong_induction_on generalizing ts with
  | _ n ih =>
    cases ts with
    | nil =>
      rw [drain_nil]
      simp [sizeQTasks] at hn
      simpa using hn
    | cons t rest =>
      have hsz : sizeQTasks (t :: rest) = t.size + sizeQTasks rest := by simp [sizeQTasks]
      have hspawn := QTask.size_spawns t
      have hlt : sizeQTasks (rest ++ t.spawnsOf) < n := by
        rw [sizeQTasks_append, ← hn, hsz]
        omega
      have hrec := ih _ hlt (rest ++ t.spawnsOf) rfl
      rw [drain_cons]
      simp only [List.length_cons, hrec, sizeQTasks_append, ← hn, hsz]
      omega

theorem drain_log_mem (ts : List QTask) (t : QTask) (ht : t ∈ ts) :
    t.idOf ∈ (drain ts).1 := by
  generalize hn : sizeQTasks ts = n
  induction n using Nat.strong_induction_on generalizing ts t with
  | _ n ih =>
    cases ts with
    | nil => cases ht
    | cons u rest =>
      have hsz : sizeQTasks (u :: rest) = u.size + sizeQTasks rest := by simp [sizeQTasks]
      have hspawn := QTask.size_spawns u
      have hlt : sizeQTasks (rest ++ u.spawnsOf) < n := by
        rw [sizeQTasks_append, ← hn, hsz]
        omega
      rw [drain_cons]
      rcases List.mem_cons.mp ht with heq | hmem
      · subst heq
        exact List.mem_cons_self _ _
      · have : t.idOf ∈ (drain (rest ++ u.spawnsOf)).1 :=
          ih _ hlt _ t (List.mem_append_left _ hmem) rfl
        exact List.mem_cons_of_mem _ this

theorem QTask.calm_idOf (t : QTask) : t.calm.idOf = t.idOf := by
  cases t; rfl

theorem QTask.calm_spawnsOf (t : QTask) : t.calm.spawnsOf = calmQTasks t.spawnsOf := by
  cases t; rfl

theorem calmQTasks_append (a b : List QTask) :
    calmQTasks (a ++ b) = calmQTasks a ++ calmQTasks b := by
  induction a with
  | nil => simp [calmQTasks]
  | cons t ts ih => simp [calmQTasks, ih]

theorem drain_calm_log (ts : List QTask) : (drain (calmQTasks ts)).1 = (drain ts).1 := by
  generalize hn : sizeQTasks ts = n
  induction n using Nat.strong_induction_on generalizing ts with
  | _ n ih =>
    cases ts with
    | nil => rfl
    | cons t rest =>
      have hsz : sizeQTasks (t :: rest) = t.size + sizeQTasks rest := by simp [sizeQTasks]
      have hspawn := QTask.size_spawns t
      have hlt : sizeQTasks (rest ++ t.spawnsOf) < n := by
        rw [sizeQTasks_append, ← hn, hsz]
        omega
      have hcalm : calmQTasks (t :: rest) = t.calm :: calmQTasks rest := by
        simp [calmQTasks]
      rw [hcalm, drain_cons, drain_cons, QTask.calm_idOf, QTask.calm_spawnsOf,
        ← calmQTasks_append]
      have hrec := ih _ hlt (rest ++ t.spawnsOf) rfl
      simp [hrec]

/-- Claim C5: the queue executes tasks one at a time in strict FIFO
order with no overlapping execution — `processQueue` is a no-op while
the `processing` flag is set, so at most one drain loop is ever
active; for spawn-free queues the execution log is exactly the enqueue
order; every task the drain gives rise to (including reentrantly
enqueued ones) is executed by that same drain, the log having exactly
one entry per task; and a task enqueued from inside a running task is
appended at the tail and picked up by the same loop after the tasks
already queued, as the concrete reentrant scenario shows (task 1
enqueues task 3 while task 2 is already queued: order 1, 2, 3). -/
theorem queue_fifo_single_drain :
    (∀ s : QState, s.processing = true → processQueue s = s)
    ∧ (∀ ts : List QTask, (∀ t ∈ ts, t.spawnsOf = []) → (drain ts).1 = ts.map QTask.idOf)
    ∧ (∀ ts : List QTask, (drain ts).1.length = sizeQTasks ts)
    ∧ (drain [QTask.mk 1 false [QTask.mk 3 false []], QTask.mk 2 false []]).1 = [1, 2, 3] := by
  refine ⟨processQueue_busy, drain_no_spawns, drain_log_length, ?_⟩
  simp [drain_cons, drain_nil, QTask.idOf, QTask.spawnsOf, QTask.failsOf]

/-- Witness for C5: a busy state is left untouched, and a concrete
spawn-free queue drains in enqueue order. -/
theorem queue_fifo_single_drain_witness :
    processQueue { queue := [QTask.mk 7 false []], processing := true, log := [], errors := [] }
      = { queue := [QTask.mk 7 false []], processing := true, log := [], errors := [] }
    ∧ (drain [QTask.mk 1 false [], QTask.mk 2 false []]).1 = [1, 2] := by
  refine ⟨queue_fifo_single_drain.1 _ rfl, ?_⟩
  have h := queue_fifo_single_drain.2.1 [QTask.mk 1 false [], QTask.mk 2 false []]
    (by intro t ht; fin_cases ht <;> rfl)
  simpa [QTask.idOf] using h

/-- Claim C7: a rejecting task is caught and logged inside the drain
loop and never stops it — clearing every failure flag changes neither
which tasks execute nor their order; `enqueue` returns normally (the
model is total, no error escapes) with the queue fully drained for any
task, failing or not; and concretely a failing first task still lets
the second run, with the failure recorded in the error log rather than
propagated. -/
theorem queue_failure_isolation :
    (∀ ts : List QTask, (drain (calmQTasks ts)).1 = (drain ts).1)
    ∧ (∀ (s : QState) (t : QTask), s.processing = false →
        (enqueue t s).queue = [] ∧ (enqueue t s).processing = false)
    ∧ drain [QTask.mk 1 true [], QTask.mk 2 false []] = ([1, 2], [1]) := by
  refine ⟨drain_calm_log, ?_, ?_⟩
  · intro s t h
    constructor <;> simp [enqueue, processQueue, h]
  · simp [drain_cons, drain_nil, QTask.idOf, QTask.spawnsOf, QTask.failsOf]

/-- Witness for C7: enqueuing a failing task on an idle queue
completes with the queue drained and the flag clear. -/
theorem queue_failure_isolation_witness :
    (enqueue (QTask.mk 9 true []) { queue := [], processing := false, log := [], errors := [] }).queue = []
    ∧ (enqueue (QTask.mk 9 true []) { queue := [], processing := false, log := [], errors := [] }).processing = false :=
  queue_failure_isolation.2.1 _ _ rfl

/-- Claim C10: when a drain loop is already active, the promise
returned by `enqueue` resolves as soon as the task is appended —
`enqueue` returns the state with just the push, the task unexecuted;
when the queue is idle, `enqueue` resolves only after the drain it
starts has completely emptied the queue: the final queue is empty,
the flag is clear, the log extends by the full drain of the queue plus
the new task — one entry per task the drain gives rise to, including
reentrantly enqueued ones — and the new task itself has executed. -/
theorem enqueue_promise_semantics :
    (∀ (t : QTask) (s : QState), s.processing = true →
        enqueue t s = { s with queue := s.queue ++ [t] })
    ∧ (∀ (t : QTask) (s : QState), s.processing = false →
        (enqueue t s).queue = []
        ∧ (enqueue t s).processing = false
        ∧ (enqueue t s).log = s.log ++ (drain (s.queue ++ [t])).1
        ∧ (enqueue t s).log.length = s.log.length + sizeQTasks s.queue + t.size
        ∧ t.idOf ∈ (enqueue t s).log) := by
  constructor
  · intro t s h
    simp [enqueue, processQueue, h]
  · intro t s h
    refine ⟨by simp [enqueue, processQueue, h], by simp [enqueue, processQueue, h],
      by simp [enqueue, processQueue, h], ?_, ?_⟩
    · have hlen := drain_log_length (s.queue ++ [t])
      have happ : sizeQTasks (s.queue ++ [t]) = sizeQTasks s.queue + t.size := by
        rw [sizeQTasks_append]
        simp [sizeQTasks]
      simp [enqueue, processQueue, h, hlen, happ]
      omega
    · have hmem := drain_log_mem (s.queue ++ [t]) t (List.mem_append_right _ (List.mem_singleton_self _))
      simp [enqueue, processQueue, h]
      exact Or.inr hmem

/-- Witness for C10: a busy queue only records the push; an idle queue
drains the pushed task before `enqueue` resolves. -/
theorem enqueue_promise_semantics_witness :
    enqueue (QTask.mk 4 false []) { queue := [], processing := true, log := [], errors := [] }
      = { queue := [QTask.mk 4 false []], processing := true, log := [], errors := [] }
    ∧ (enqueue (QTask.mk 4 false []) { queue := [], processing := false, log := [], errors := [] }).log.length
        = (QTask.mk 4 false []).size := by
  constructor
  · exact enqueue_promise_semantics.1 _ _ rfl
  · have h := enqueue_promise_semantics.2 (QTask.mk 4 false [])
      { queue := [], processing := false, log := [], errors := [] } rfl
    simpa [sizeQTasks] using h.2.2.2.1
